import Mathlib

/-!
Verification development for the CubeFS bypass client core
(src/client/bypass/include/client.h and src/libsdk/libcfs.h).

The C functions are shallowly embedded as executable Lean functions:
C strings become `String` / `List Char` (NUL-free; reads past the end of a
buffer are modelled by `charAt`, which yields the NUL character, matching the
terminator a C read would see), machine integers become `Nat`/`Int` (file
descriptors are modelled as non-negative 32-bit values, i.e. naturals below
2^32, so C bitwise operations become `Nat.land`), the shared tables of
`client_info_t` become explicit state records, and the external collaborators
of `cfs_pread_sock` (the extent query, the packet builder, the connection
pool, socket I/O, and the fallback SDK read) become oracle parameters, one
result per loop iteration, exactly as the loop consumes them.
`malloc`/`strdup` failure is modelled by an `AllocEnv` of per-site success
flags; a C function that returns NULL on failure returns `Option` here.
-/

namespace CfsClient

/-- The NUL character, i.e. the C string terminator. -/
def nul : Char := Char.ofNat 0

/-- C string indexing `s[i]`: reading at or past the end yields NUL. -/
def charAt (s : List Char) (i : Nat) : Char := s.getD i nul

/-! ### get_clean_path (client.h lines 436-504)

The C function works on a write buffer `out` with write index `w` and the
barrier index `dotdot`; we represent the written prefix `out[0..w-1]` as a
`List Char` (so `w = out.length`). -/

/-- The two characters appended by the `..`-element branch of
`get_clean_path` (`out[w++]='.'; out[w++]='.';`). -/
def dd2 : List Char := ['.', '.']

/-- The backtracking scan of the `..` branch of `get_clean_path`:
`w--; while(w > dotdot && out[w] != '/') w--;` — starting from `w`,
step down while above `dotdot` and not on a slash. Returns the final `w`. -/
def backW (out : List Char) (dotdot : Nat) (w : Nat) : Nat :=
  if w > dotdot ∧ charAt out w ≠ '/' then backW out dotdot (w - 1) else w
termination_by w
decreasing_by omega

/-- The separator insertion plus element copy of the real-path-element branch
of `get_clean_path`: `if(rooted && w != 1 || !rooted && w != 0) out[w++]='/';`
followed by copying the element `seg`. -/
def updOut (rooted : Bool) (out seg : List Char) : List Char :=
  (if (rooted ∧ out.length ≠ 1) ∨ (rooted = false ∧ out.length ≠ 0)
   then out ++ ['/'] else out) ++ seg

/-- The main `while(r < n)` loop of `get_clean_path`. `p` is the unread
suffix of the input path (`path[r..]`), `out` the written prefix of the
output buffer, `dotdot` the backtracking barrier. -/
def cleanLoop (rooted : Bool) (p : List Char) (out : List Char) (dotdot : Nat) :
    List Char :=
  match p with
  | [] => out
  | c :: rest =>
    if c = '/' then
      -- empty path element
      cleanLoop rooted rest out dotdot
    else if c = '.' ∧ (rest = [] ∨ rest.head? = some '/') then
      -- . element
      cleanLoop rooted rest out dotdot
    else if c = '.' ∧ rest.head? = some '.' ∧
        (rest.tail = [] ∨ rest.tail.head? = some '/') then
      -- .. element: remove to last /
      if out.length > dotdot then
        cleanLoop rooted rest.tail
          (out.take (backW out dotdot (out.length - 1))) dotdot
      else if rooted = false then
        let out2 := (if out.length > 0 then out ++ ['/'] else out) ++ dd2
        cleanLoop rooted rest.tail out2 out2.length
      else
        cleanLoop rooted rest.tail out dotdot
    else
      -- real path element
      let seg := c :: rest.takeWhile (fun x => x != '/')
      cleanLoop rooted (rest.dropWhile (fun x => x != '/'))
        (updOut rooted out seg) dotdot
termination_by p.length
decreasing_by
  all_goals
    have hdw := (List.dropWhile_sublist (l := rest) (fun x => x != '/')).length_le
    simp [List.length_tail]
    try omega

/-- `get_clean_path` (client.h 436-504): a C port of Go's `path.Clean`.
The NULL-input and malloc-failure cases return NULL in C; allocation is
modelled at the call site (`get_cfs_path`) via `AllocEnv`. -/
def get_clean_path (path : String) : String :=
  let p := path.data
  let rooted : Bool := p.head? = some '/'
  let res := if rooted then cleanLoop true p.tail ['/'] 1 else cleanLoop false p [] 0
  -- Turn empty string into "."
  if res = [] then "." else ⟨res⟩

/-! ### cat_path and get_cfs_path (client.h 510-607) -/

/-- `cat_path` (client.h 510-526): concatenate the cwd and the relative
path with a "/" between them. -/
def cat_path (cwd pathname : String) : String := cwd ++ "/" ++ pathname

/-- C `strncmp(a, b, n) == 0`, with the terminating NUL of either string
participating in the comparison. -/
def strncmp0 : List Char → List Char → Nat → Bool
  | _, _, 0 => true
  | [], [], _ + 1 => true
  | [], _ :: _, _ + 1 => false
  | _ :: _, [], _ + 1 => false
  | a :: as, b :: bs, n + 1 => a == b && strncmp0 as bs n

/-- `strtok(s, ",")` iteration: the maximal non-empty runs of non-delimiter
characters, in order. `cur` is the (reversed) run being accumulated. -/
def strtokAux (d : Char) : List Char → List Char → List (List Char)
  | [], cur => if cur = [] then [] else [cur.reverse]
  | c :: rest, cur =>
    if c = d then
      if cur = [] then strtokAux d rest []
      else cur.reverse :: strtokAux d rest []
    else strtokAux d rest (c :: cur)

/-- All tokens produced by `strtok` over a comma-delimited string. -/
def strtokens (s : List Char) : List (List Char) := strtokAux ',' s []

/-- The `while(token != NULL)` loop of `get_cfs_path` (client.h 571-580):
walk the ignore-list tokens; on a token matching the first path segment
after the mount point, `is_cfs = false` and break; otherwise set
`is_cfs = true` and continue. `is_cfs` is the accumulator (initially the
`false` from line 561). -/
def ignoreLoop (real_path : List Char) (len : Nat) :
    List (List Char) → Bool → Bool
  | [], is_cfs => is_cfs
  | t :: ts, _ =>
    if charAt real_path len == '/' && strncmp0 (real_path.drop (len + 1)) t t.length
        && (charAt real_path (len + 1 + t.length) == nul
            || charAt real_path (len + 1 + t.length) == '/') then
      false
    else ignoreLoop real_path len ts true

/-- Success flags for the four allocation sites of `get_cfs_path`:
the `malloc` inside `get_clean_path`, the `malloc` inside `cat_path`,
the `strdup` of the ignore list, and the `malloc` of the stripped result. -/
structure AllocEnv where
  clean_ok : Bool
  cat_ok : Bool
  strdup_ok : Bool
  result_ok : Bool

/-- The environment in which every allocation succeeds. -/
def allocOK : AllocEnv := ⟨true, true, true, true⟩

/-- The fields of the process-wide `client_info_t` that `get_cfs_path`
reads: `mount_point` (trailing '/' already stripped at init), `ignore_path`,
`cwd` (mount-point part excluded when `in_cfs`), and `in_cfs`. -/
structure ClientInfo where
  mount_point : String
  ignore_path : String
  cwd : String
  in_cfs : Bool

/-- `get_cfs_path` (client.h 534-607): return the remainder of the path
with the mount point stripped if the path is in CFS, NULL otherwise or on
any error (a NULL pathname, or a failed allocation). -/
def get_cfs_path (alloc : AllocEnv) (g : ClientInfo) (pathname : Option String) :
    Option String :=
  match pathname with
  | none => none
  | some pn =>
    if pn.data.head? ≠ some '/' ∧ g.in_cfs = false then none
    else if alloc.clean_ok = false then none
    else
      let real_path := (get_clean_path pn).data
      if pn.data.head? ≠ some '/' ∧ g.in_cfs = true then
        if alloc.cat_ok = false then none
        else some (cat_path g.cwd (get_clean_path pn))
      else
        if alloc.strdup_ok = false then none
        else
          let mp := g.mount_point.data
          let len := mp.length
          let is_cfs : Bool :=
            if strncmp0 real_path mp len then
              if g.ignore_path.data.length > 0 then
                ignoreLoop real_path len (strtokens g.ignore_path.data) false
              else
                charAt real_path len == nul || charAt real_path len == '/'
            else false
          if is_cfs = false then none
          else if alloc.result_ok = false then none
          else some (if real_path.drop len = [] then "/" else ⟨real_path.drop len⟩)

/-! ### Error translator (client.h 610-629) -/

/-- `cfs_errno` (client.h 610-618): translate a remote SDK `int` status.
State-passing model of the global `errno`: takes the previous `errno`
value, returns `(result, new errno)`. -/
def cfs_errno (errno0 : Int) (re : Int) : Int × Int :=
  if re < 0 then (-1, -re) else (re, 0)

/-- `cfs_errno_ssize_t` (client.h 621-629): same translation for `ssize_t`
results. -/
def cfs_errno_ssize_t (errno0 : Int) (re : Int) : Int × Int :=
  if re < 0 then (-1, -re) else (re, 0)

/-! ### Descriptor registry (client.h 312, 664-697) -/

/-- `CFS_FD_MASK` (client.h 312): `1 << (sizeof(int)*8 - 2)` = bit 30. -/
def CFS_FD_MASK : Nat := 1 <<< 30

/-- The 32-bit pattern of C's `~CFS_FD_MASK` (0xBFFFFFFF); for a
non-negative 32-bit `fd`, `fd &&& CFS_FD_UNMASK` is C's `fd & ~CFS_FD_MASK`. -/
def CFS_FD_UNMASK : Nat := 0xFFFFFFFF - CFS_FD_MASK

/-- `file_t` (client.h 326-333); the `inode_info` pointer is modelled as an
opaque inode number. -/
structure file_t where
  fd : Nat
  flags : Int
  pos : Int
  dup_ref : Int
  file_type : Int
  inode : Nat

/-- The two descriptor tables of `client_info_t` that `fd_in_cfs`,
`get_cfs_fd` and `dup_fd` touch: `open_files` and `dup_fds`, each modelled
as a partial map on non-negative descriptors. -/
structure FdState where
  open_files : Nat → Option file_t
  dup_fds : Nat → Option Nat

/-- `fd_in_cfs` (client.h 664-673): fd has a dup entry, or carries the
reserved bit. -/
def fd_in_cfs (st : FdState) (fd : Nat) : Bool :=
  if (st.dup_fds fd).isSome then true
  else if fd &&& CFS_FD_MASK ≠ 0 then true
  else false

/-- `get_cfs_fd` (client.h 675-684): a dup entry is returned as stored
(no bit stripping); otherwise a fd with the reserved bit set is returned
with the bit cleared; otherwise -1. -/
def get_cfs_fd (st : FdState) (fd : Nat) : Int :=
  match st.dup_fds fd with
  | some cfs_fd => (cfs_fd : Int)
  | none => if fd &&& CFS_FD_MASK ≠ 0 then ((fd &&& CFS_FD_UNMASK : Nat) : Int) else -1

/-- `dup_fd` (client.h 686-697): fail with -1 if `oldfd` has no open file;
otherwise bump the open file's `dup_ref`, record `dup_fds[newfd] = oldfd`
and return `newfd`. Returns the result and the new table state. -/
def dup_fd (st : FdState) (oldfd newfd : Nat) : Int × FdState :=
  match st.open_files oldfd with
  | none => (-1, st)
  | some f =>
    ((newfd : Int),
      { open_files := fun x =>
          if x = oldfd then some { f with dup_ref := f.dup_ref + 1 }
          else st.open_files x,
        dup_fds := fun x => if x = newfd then some oldfd else st.dup_fds x })

/-! ### Hybrid read engine: cfs_pread_sock (client.h 707-758)

`cfs_read_requests`, `new_read_packet`, `get_conn`, `write_sock`,
`get_read_reply`, `put_conn` and `cfs_pread` are external collaborators
(not defined under src/); they are modelled as oracles giving the result
each call site observes at loop iteration `i`. Buffer contents are not
modelled; the claims concern byte accounting and control flow. -/

/-- One extent-location descriptor produced by `cfs_read_requests`.
`partition_id = 0` marks a hole (zero-fill, no network I/O). -/
structure cfs_read_req_t where
  partition_id : Nat
  extent_id : Nat
  extent_offset : Nat
  size : Nat
  file_offset : Nat
  dp_host : String
  dp_port : Nat

/-- Oracle results for the fast-path collaborators at loop iteration `i`:
whether `new_read_packet` returned non-NULL, the `get_conn` socket (negative
= failure), the `write_sock` result, and the `get_read_reply` result. -/
structure SockEnv where
  new_read_packet_ok : Nat → Bool
  get_conn : Nat → Int
  write_sock : Nat → Int
  get_read_reply : Nat → Int

/-- The `for(i = 0; i < req_count; i++)` loop of `cfs_pread_sock`:
returns the accumulated byte count `read` and the number of completed
socket round trips (a `write_sock` + `get_read_reply` pair that both
succeeded). `i` is the loop index into the oracle. -/
def fastLoop (env : SockEnv) : List cfs_read_req_t → Nat → Nat → Nat → Nat × Nat
  | [], _, read, ex => (read, ex)
  | req :: rest, i, read, ex =>
    if req.size = 0 then (read, ex)
    else if req.partition_id = 0 then
      -- hole: memset zero-fill, no network I/O
      fastLoop env rest (i + 1) (read + req.size) ex
    else if env.new_read_packet_ok i = false then (read, ex)
    else if env.get_conn i < 0 then (read, ex)
    else if env.write_sock i < 0 then (read, ex)
    else if env.get_read_reply i < 0 then (read, ex)
    else
      let re := (env.get_read_reply i).toNat
      if re = req.size then fastLoop env rest (i + 1) (read + re) (ex + 1)
      else (read + re, ex + 1)

/-- Result of `cfs_pread_sock`: the returned byte count / error value,
whether the fallback `cfs_pread` was invoked, and how many socket round
trips completed. -/
structure PreadResult where
  ret : Int
  fallback_called : Bool
  sock_exchanges : Nat
  deriving DecidableEq

/-- `cfs_pread_sock` (client.h 707-758). `reqs` is the descriptor list the
`cfs_read_requests` query produced (empty on query failure), `count` the
requested byte count, `fallback_ret` the value the fallback `cfs_pread`
call would return. If the fast-path loop accounts for fewer than `count`
bytes, the fallback is invoked and its result returned. -/
def cfs_pread_sock (env : SockEnv) (reqs : List cfs_read_req_t) (count : Nat)
    (fallback_ret : Int) : PreadResult :=
  let r := fastLoop env reqs 0 0 0
  if r.1 < count then ⟨fallback_ret, true, r.2⟩ else ⟨(r.1 : Int), false, r.2⟩

/-! ### Normal forms of cleaned paths

A cleaned path is `/`, `.`, or a `/`-joined sequence of proper segments,
optionally rooted, with any `..` segments only at the front of an unrooted
path. These shapes drive the idempotence proof for `get_clean_path`. -/

/-- A byte sequence that can sit between two separators: non-empty and
slash-free. -/
def plainSeg (s : List Char) : Prop := s ≠ [] ∧ '/' ∉ s

/-- A segment that survives cleaning: plain and neither `.` nor `..`. -/
def goodSeg (s : List Char) : Prop := plainSeg s ∧ s ≠ ['.'] ∧ s ≠ dd2

instance (s : List Char) : Decidable (plainSeg s) :=
  decidable_of_iff (s ≠ [] ∧ '/' ∉ s) Iff.rfl

instance (s : List Char) : Decidable (goodSeg s) :=
  decidable_of_iff (plainSeg s ∧ s ≠ ['.'] ∧ s ≠ dd2) Iff.rfl

/-- Join segments with `/` separators (no leading or trailing separator). -/
def joinSegs : List (List Char) → List Char
  | [] => []
  | [s] => s
  | s :: l => s ++ '/' :: joinSegs l

/-- `k` copies of the `..` segment. -/
def reps (k : Nat) : List (List Char) := List.replicate k dd2

/-- The output buffer contents described by the `cleanLoop` invariant:
a rooted buffer is `/` followed by joined good segments; an unrooted buffer
is `k` leading `..` segments followed by good segments, joined. -/
def outOf (rooted : Bool) (k : Nat) (segs : List (List Char)) : List Char :=
  if rooted then '/' :: joinSegs segs else joinSegs (reps k ++ segs)

/-- The `dotdot` barrier accompanying `outOf`: index 1 (the root slash) when
rooted, else the length of the leading `..` prefix. -/
def ddOf (rooted : Bool) (k : Nat) : Nat :=
  if rooted then 1 else (joinSegs (reps k)).length

/-! ### Concrete sample states used by witnesses and counterexamples -/

/-- Sample open file entry. -/
def sampleFile : file_t := ⟨7, 0, 0, 1, 0, 11⟩

/-- Descriptor tables with a single open file at fd 9. -/
def fdStOne : FdState := ⟨fun x => if x = 9 then some sampleFile else none, fun _ => none⟩

/-- Descriptor tables with a dup entry `5 ↦ CFS_FD_MASK + 7`, i.e. the
stored original descriptor carries the reserved bit. -/
def fdStAlias : FdState :=
  ⟨fun _ => none, fun x => if x = 5 then some (CFS_FD_MASK + 7) else none⟩

/-- Client config: mount `/cfs`, ignore list `d`, cwd `/d` inside CFS. -/
def gIn : ClientInfo := ⟨"/cfs", "d", "/d", true⟩

/-- Client config: mount `/cfs`, ignore list `x`, cwd outside CFS. -/
def gOut : ClientInfo := ⟨"/cfs", "x", "/", false⟩

/-- Client config: mount `/cfs`, empty ignore list, cwd outside CFS. -/
def gOutNoIgnore : ClientInfo := ⟨"/cfs", "", "/", false⟩

/-- A fast-path oracle in which every collaborator succeeds and every reply
carries 4096 bytes. -/
def okEnv : SockEnv := ⟨fun _ => true, fun _ => 0, fun _ => 0, fun _ => 4096⟩

/-- A fast-path oracle in which every collaborator fails. -/
def failEnv : SockEnv := ⟨fun _ => false, fun _ => -1, fun _ => -1, fun _ => -1⟩

/-- A single extent descriptor covering 4096 bytes at offset 0. -/
def okReq : cfs_read_req_t := ⟨1, 1, 0, 4096, 0, "h", 80⟩

/-! ### Step lemmas for `cleanLoop` -/

theorem cleanLoop_nil (rooted : Bool) (out : List Char) (dd : Nat) :
    cleanLoop rooted [] out dd = out := by
  rw [cleanLoop]

theorem cleanLoop_slash (rooted : Bool) (r out : List Char) (dd : Nat) :
    cleanLoop rooted ('/' :: r) out dd = cleanLoop rooted r out dd := by
  rw [cleanLoop]
  simp

theorem cleanLoop_dot (rooted : Bool) (r out : List Char) (dd : Nat)
    (h : r = [] ∨ r.head? = some '/') :
    cleanLoop rooted ('.' :: r) out dd = cleanLoop rooted r out dd := by
  rw [cleanLoop]
  rw [if_neg (by decide)]
  rw [if_pos ⟨rfl, h⟩]

theorem cleanLoop_dotdot (rooted : Bool) (r out : List Char) (dd : Nat)
    (h : r = [] ∨ r.head? = some '/') :
    cleanLoop rooted ('.' :: '.' :: r) out dd =
      if out.length > dd then
        cleanLoop rooted r (out.take (backW out dd (out.length - 1))) dd
      else if rooted = false then
        cleanLoop rooted r ((if out.length > 0 then out ++ ['/'] else out) ++ dd2)
          ((if out.length > 0 then out ++ ['/'] else out) ++ dd2).length
      else cleanLoop rooted r out dd := by
  rw [cleanLoop]
  rw [if_neg (by decide)]
  rw [if_neg (by simp)]
  rw [if_pos ⟨rfl, by simp, by simpa using h⟩]
  simp only [List.tail_cons]

theorem takeWhile_plain (a r : List Char) (ha : '/' ∉ a)
    (hr : r = [] ∨ r.head? = some '/') :
    (a ++ r).takeWhile (fun x => x != '/') = a ∧
      (a ++ r).dropWhile (fun x => x != '/') = r := by
  induction a with
  | nil =>
    rcases hr with h | h
    · simp [h]
    · cases r with
      | nil => simp at h
      | cons c r2 =>
        simp only [Option.some.injEq, List.head?_cons] at h
        subst h
        constructor
        · simp [List.takeWhile_cons]
        · simp [List.dropWhile_cons]
  | cons c a2 ih =>
    have hc : c ≠ '/' := fun hh => ha (by simp [hh])
    have ih2 := ih (fun hm => ha (by simp [hm]))
    constructor
    · simpa [List.takeWhile_cons, hc] using ih2.1
    · simpa [List.dropWhile_cons, hc] using ih2.2

theorem cleanLoop_seg (rooted : Bool) (s r out : List Char) (dd : Nat)
    (hs : goodSeg s) (hr : r = [] ∨ r.head? = some '/') :
    cleanLoop rooted (s ++ r) out dd = cleanLoop rooted r (updOut rooted out s) dd := by
  obtain ⟨⟨hne, hns⟩, hd1, hd2⟩ := hs
  cases s with
  | nil => exact absurd rfl hne
  | cons c s2 =>
    have hc : c ≠ '/' := fun hh => hns (by simp [hh])
    have hns2 : '/' ∉ s2 := fun hm => hns (by simp [hm])
    rw [show (c :: s2) ++ r = c :: (s2 ++ r) from rfl]
    rw [cleanLoop]
    rw [if_neg hc]
    rw [if_neg ?hb2]
    case hb2 =>
      rintro ⟨hc2, hor⟩
      subst hc2
      cases s2 with
      | nil => exact hd1 rfl
      | cons c2 s3 =>
        rcases hor with hh | hh
        · simp at hh
        · simp only [List.cons_append, List.head?_cons, Option.some.injEq] at hh
          exact hns (by simp [hh])
    rw [if_neg ?hb3]
    case hb3 =>
      rintro ⟨hc2, h2, h3⟩
      subst hc2
      cases s2 with
      | nil =>
        rcases hr with hh | hh
        · simp [hh] at h2
        · simp only [List.nil_append] at h2
          rw [hh] at h2
          simp at h2
      | cons c2 s3 =>
        simp only [List.cons_append, List.head?_cons, Option.some.injEq] at h2
        subst h2
        cases s3 with
        | nil =>
          exact hd2 rfl
        | cons c3 s4 =>
          simp only [List.cons_append, List.tail_cons] at h3
          rcases h3 with hh | hh
          · simp at hh
          · simp only [List.cons_append, List.head?_cons, Option.some.injEq] at hh
            exact hns (by simp [hh])
    have htw := takeWhile_plain s2 r hns2 hr
    simp only [List.cons_append, List.tail_cons] at htw ⊢
    rw [htw.1, htw.2]

/-! ### Lemmas about `joinSegs`, `backW`, and the buffer shapes `outOf` -/

theorem joinSegs_cons (s : List Char) (l : List (List Char)) (h : l ≠ []) :
    joinSegs (s :: l) = s ++ '/' :: joinSegs l := by
  cases l with
  | nil => exact absurd rfl h
  | cons t l2 => rfl

theorem joinSegs_append (l m : List (List Char)) (hl : l ≠ []) (hm : m ≠ []) :
    joinSegs (l ++ m) = joinSegs l ++ '/' :: joinSegs m := by
  induction l with
  | nil => exact absurd rfl hl
  | cons s l2 ih =>
    cases l2 with
    | nil =>
      rw [List.singleton_append, joinSegs_cons s m hm]
      rfl
    | cons t l3 =>
      rw [List.cons_append, joinSegs_cons s ((t :: l3) ++ m) (by simp),
        joinSegs_cons s (t :: l3) (by simp), ih (by simp)]
      simp

theorem joinSegs_concat (l : List (List Char)) (s : List Char) (hl : l ≠ []) :
    joinSegs (l ++ [s]) = joinSegs l ++ '/' :: s :=
  joinSegs_append l [s] hl (by simp)

theorem joinSegs_ne_nil (l : List (List Char)) (h : ∀ s ∈ l, s ≠ []) (hl : l ≠ []) :
    joinSegs l ≠ [] := by
  cases l with
  | nil => exact absurd rfl hl
  | cons s l2 =>
    cases l2 with
    | nil => exact h s (by simp)
    | cons t l3 =>
      rw [joinSegs_cons s (t :: l3) (by simp)]
      simp [h s (by simp)]

theorem joinSegs_head? (s : List Char) (l : List (List Char)) (hs : s ≠ []) :
    (joinSegs (s :: l)).head? = s.head? := by
  cases l with
  | nil => rfl
  | cons t l2 =>
    rw [joinSegs_cons s (t :: l2) (by simp)]
    cases s with
    | nil => exact absurd rfl hs
    | cons c s2 => simp

theorem joinSegs_getLast (l : List (List Char)) (hl : l ≠ [])
    (hp : ∀ s ∈ l, plainSeg s) :
    ∃ c, c ≠ '/' ∧ (joinSegs l).getLast? = some c := by
  induction l with
  | nil => exact absurd rfl hl
  | cons s l2 ih =>
    cases l2 with
    | nil =>
      have hs := hp s (by simp)
      have hsne : s ≠ [] := hs.1
      refine ⟨s.getLast hsne, ?_, ?_⟩
      · intro hc
        have hmem := List.getLast_mem hsne
        rw [hc] at hmem
        exact hs.2 hmem
      · show (joinSegs [s]).getLast? = some (s.getLast hsne)
        rw [show joinSegs [s] = s from rfl]
        exact List.getLast?_eq_getLast s hsne
    | cons t l3 =>
      obtain ⟨c, hc, hlast⟩ := ih (by simp) (fun x hx => hp x (by simp [hx]))
      refine ⟨c, hc, ?_⟩
      rw [joinSegs_cons s (t :: l3) (by simp)]
      rw [List.getLast?_append]
      rw [show ('/' :: joinSegs (t :: l3)) = ['/'] ++ joinSegs (t :: l3) from rfl]
      rw [List.getLast?_append]
      rw [hlast]
      rfl

theorem charAt_cons_succ (c : Char) (l : List Char) (n : Nat) :
    charAt (c :: l) (n + 1) = charAt l n := by
  simp [charAt]

theorem charAt_append_right (u v : List Char) (n : Nat) (h : u.length ≤ n) :
    charAt (u ++ v) n = charAt v (n - u.length) :=
  List.getD_append_right u v nul n h

theorem charAt_ne_of_mem (l : List Char) (n : Nat) (hn : n < l.length)
    (h : '/' ∉ l) : charAt l n ≠ '/' := by
  intro hc
  have : l.getD n nul ∈ l := by
    rw [List.getD_eq_getElem?_getD, List.getElem?_eq_getElem hn]
    exact List.getElem_mem hn
  rw [show l.getD n nul = charAt l n from rfl, hc] at this
  exact h this

theorem backW_no_slash (j : Nat) (out : List Char) (dd : Nat)
    (h : ∀ i, 1 ≤ i → i ≤ j → charAt out (dd + i) ≠ '/') :
    backW out dd (dd + j) = dd := by
  induction j with
  | zero =>
    rw [backW]
    simp
  | succ j ih =>
    rw [backW]
    rw [if_pos ⟨by omega, h (j + 1) (by omega) le_rfl⟩]
    rw [show dd + (j + 1) - 1 = dd + j by omega]
    exact ih (fun i h1 h2 => h i h1 (by omega))

theorem backW_slash (j : Nat) (out : List Char) (dd w0 : Nat) (hw : dd ≤ w0)
    (h0 : charAt out w0 = '/')
    (h : ∀ i, 1 ≤ i → i ≤ j → charAt out (w0 + i) ≠ '/') :
    backW out dd (w0 + j) = w0 := by
  induction j with
  | zero =>
    rw [backW]
    rw [if_neg (by simp [h0])]
    omega
  | succ j ih =>
    rw [backW]
    rw [if_pos ⟨by omega, h (j + 1) (by omega) le_rfl⟩]
    rw [show w0 + (j + 1) - 1 = w0 + j by omega]
    exact ih (fun i h1 h2 => h i h1 (by omega))

theorem reps_elem_ne_nil (k : Nat) (segs : List (List Char))
    (hg : ∀ t ∈ segs, goodSeg t) : ∀ t ∈ reps k ++ segs, t ≠ [] := by
  intro t ht
  rcases List.mem_append.1 ht with h | h
  · rw [List.eq_of_mem_replicate h]
    simp [dd2]
  · exact (hg t h).1.1

theorem reps_elem_only (k : Nat) : ∀ t ∈ reps k, t ≠ [] := by
  intro t ht
  rw [List.eq_of_mem_replicate ht]
  simp [dd2]

theorem outOf_length_gt (rooted : Bool) (k : Nat) (segs : List (List Char))
    (hg : ∀ t ∈ segs, goodSeg t) :
    ((outOf rooted k segs).length > ddOf rooted k ↔ segs ≠ []) := by
  cases rooted with
  | true =>
    simp only [outOf, ddOf, if_true, List.length_cons]
    by_cases hs : segs = []
    · simp [hs, joinSegs]
    · have := joinSegs_ne_nil segs (fun t ht => (hg t ht).1.1) hs
      have := List.length_pos.2 this
      simp [hs]
      omega
  | false =>
    simp only [outOf, ddOf, Bool.false_eq_true, if_false]
    by_cases hs : segs = []
    · simp [hs]
    · simp only [hs, iff_true, ne_eq, not_false_iff]
      cases k with
      | zero =>
        simp only [reps, List.replicate_zero, List.nil_append]
        have := joinSegs_ne_nil segs (fun t ht => (hg t ht).1.1) hs
        have := List.length_pos.2 this
        simp [joinSegs]
        try omega
      | succ k2 =>
        rw [joinSegs_append (reps (k2 + 1)) segs (by simp [reps]) hs]
        simp
        try omega

theorem updOut_outOf (rooted : Bool) (k : Nat) (segs : List (List Char)) (s : List Char)
    (hg : ∀ t ∈ segs, goodSeg t) :
    updOut rooted (outOf rooted k segs) s = outOf rooted k (segs ++ [s]) := by
  cases rooted with
  | true =>
    simp only [updOut, outOf, if_true, List.length_cons]
    by_cases hs : segs = []
    · subst hs
      simp [joinSegs]
    · have hjne := joinSegs_ne_nil segs (fun t ht => (hg t ht).1.1) hs
      have hlen := List.length_pos.2 hjne
      rw [if_pos (Or.inl ⟨trivial, by omega⟩)]
      rw [joinSegs_concat segs s hs]
      simp
  | false =>
    simp only [updOut, outOf, Bool.false_eq_true, if_false]
    by_cases ha : reps k ++ segs = []
    · rw [ha]
      obtain ⟨hk, hs⟩ := List.append_eq_nil.1 ha
      simp only [joinSegs, List.length_nil]
      rw [if_neg (by simp)]
      rw [hk, hs]
      simp [joinSegs]
    · have hjne := joinSegs_ne_nil _ (reps_elem_ne_nil k segs hg) ha
      have hlen := List.length_pos.2 hjne
      rw [if_pos (Or.inr ⟨trivial, by omega⟩)]
      rw [show reps k ++ (segs ++ [s]) = (reps k ++ segs) ++ [s] by simp]
      rw [joinSegs_concat _ s ha]
      simp

theorem appendBranch_outOf (k : Nat) :
    (if (outOf false k []).length > 0 then outOf false k [] ++ ['/'] else outOf false k []) ++ dd2
      = outOf false (k + 1) [] := by
  cases k with
  | zero =>
    simp [outOf, reps, joinSegs]
  | succ k2 =>
    have hne : reps (k2 + 1) ≠ [] := by simp [reps]
    have hjne := joinSegs_ne_nil (reps (k2 + 1)) (reps_elem_only (k2 + 1)) hne
    simp only [outOf, Bool.false_eq_true, if_false, List.append_nil]
    rw [if_pos (List.length_pos.2 hjne)]
    rw [List.append_assoc]
    rw [show (['/'] ++ dd2 : List Char) = '/' :: dd2 from rfl]
    rw [← joinSegs_concat (reps (k2 + 1)) dd2 (by simpa using hne)]
    rw [show reps (k2 + 1) ++ [dd2] = reps (k2 + 2) from (List.replicate_succ' (k2 + 1) dd2).symm]

theorem outOf_append_nil_len (k : Nat) :
    (outOf false k []).length = ddOf false k := by
  simp [outOf, ddOf]

theorem ddOf_le_join (k : Nat) (init : List (List Char)) :
    (joinSegs (reps k)).length ≤ (joinSegs (reps k ++ init)).length := by
  by_cases hi : init = []
  · simp [hi]
  · cases k with
    | zero => simp [reps, joinSegs]
    | succ k2 =>
      rw [joinSegs_append (reps (k2 + 1)) init (by simp [reps]) hi]
      simp

theorem bt_outOf (rooted : Bool) (k : Nat) (segs : List (List Char))
    (hg : ∀ t ∈ segs, goodSeg t) (hne : segs ≠ []) :
    (outOf rooted k segs).take
        (backW (outOf rooted k segs) (ddOf rooted k) ((outOf rooted k segs).length - 1))
      = outOf rooted k segs.dropLast := by
  obtain ⟨init, last, rfl⟩ : ∃ init last, segs = init ++ [last] :=
    ⟨segs.dropLast, segs.getLast hne, (List.dropLast_append_getLast hne).symm⟩
  have hlastg : goodSeg last := hg last (by simp)
  have hlastne : last ≠ [] := hlastg.1.1
  have hlastns : '/' ∉ last := hlastg.1.2
  have hlastlen : 0 < last.length := List.length_pos.2 hlastne
  have hinitg : ∀ t ∈ init, goodSeg t := fun t ht => hg t (by simp [ht])
  rw [List.dropLast_concat]
  cases rooted with
  | true =>
    simp only [outOf, ddOf, if_true]
    by_cases hinit : init = []
    · subst hinit
      simp only [List.nil_append]
      rw [show joinSegs [last] = last from rfl]
      have hchars : ∀ i, 1 ≤ i → i ≤ last.length - 1 → charAt ('/' :: last) (1 + i) ≠ '/' := by
        intro i h1 h2
        rw [show (1 + i) = i + 1 by omega, charAt_cons_succ]
        exact charAt_ne_of_mem last i (by omega) hlastns
      rw [show ('/' :: last).length - 1 = 1 + (last.length - 1) by simp; omega]
      rw [backW_no_slash (last.length - 1) ('/' :: last) 1 hchars]
      simp [joinSegs]
    · rw [joinSegs_concat init last hinit]
      rw [← List.cons_append]
      set pre := '/' :: joinSegs init with hpre
      have h0 : charAt (pre ++ '/' :: last) pre.length = '/' := by
        rw [charAt_append_right pre _ _ le_rfl]
        simp [charAt]
      have habove : ∀ i, 1 ≤ i → i ≤ last.length → charAt (pre ++ '/' :: last) (pre.length + i) ≠ '/' := by
        intro i h1 h2
        rw [charAt_append_right pre _ _ (by omega)]
        rw [show pre.length + i - pre.length = (i - 1) + 1 by omega]
        rw [charAt_cons_succ]
        exact charAt_ne_of_mem last (i - 1) (by omega) hlastns
      rw [show (pre ++ '/' :: last).length - 1 = pre.length + last.length by simp]
      rw [backW_slash last.length (pre ++ '/' :: last) 1 pre.length (by simp [hpre]) h0 habove]
      exact List.take_left pre ('/' :: last)
  | false =>
    simp only [outOf, ddOf, Bool.false_eq_true, if_false]
    rw [show reps k ++ (init ++ [last]) = (reps k ++ init) ++ [last] by simp]
    by_cases ha : reps k ++ init = []
    · rw [ha]
      obtain ⟨hk, hinit⟩ := List.append_eq_nil.1 ha
      simp only [List.nil_append]
      rw [show joinSegs [last] = last from rfl]
      have hchars : ∀ i, 1 ≤ i → i ≤ last.length - 1 → charAt last (0 + i) ≠ '/' := by
        intro i h1 h2
        rw [Nat.zero_add]
        exact charAt_ne_of_mem last i (by omega) hlastns
      rw [show (joinSegs (reps k)).length = 0 by rw [hk]; rfl]
      rw [show last.length - 1 = 0 + (last.length - 1) by omega]
      rw [backW_no_slash (last.length - 1) last 0 hchars]
      simp [joinSegs]
    · rw [joinSegs_concat _ last ha]
      set pre := joinSegs (reps k ++ init) with hpre
      have hprene : pre ≠ [] := joinSegs_ne_nil _ (reps_elem_ne_nil k init hinitg) ha
      have h0 : charAt (pre ++ '/' :: last) pre.length = '/' := by
        rw [charAt_append_right pre _ _ le_rfl]
        simp [charAt]
      have habove : ∀ i, 1 ≤ i → i ≤ last.length → charAt (pre ++ '/' :: last) (pre.length + i) ≠ '/' := by
        intro i h1 h2
        rw [charAt_append_right pre _ _ (by omega)]
        rw [show pre.length + i - pre.length = (i - 1) + 1 by omega]
        rw [charAt_cons_succ]
        exact charAt_ne_of_mem last (i - 1) (by omega) hlastns
      rw [show (pre ++ '/' :: last).length - 1 = pre.length + last.length by simp]
      rw [backW_slash last.length (pre ++ '/' :: last) (joinSegs (reps k)).length pre.length
        (ddOf_le_join k init) h0 habove]
      exact List.take_left pre ('/' :: last)

/-! ### The `cleanLoop` invariant: buffers stay in normal form -/

theorem takeWhile_nil_boundary (l : List Char)
    (h : l.takeWhile (fun x => x != '/') = []) :
    l = [] ∨ l.head? = some '/' := by
  cases l with
  | nil => exact Or.inl rfl
  | cons c r =>
    right
    rw [List.takeWhile_cons] at h
    by_cases hc : (c != '/') = true
    · rw [if_pos hc] at h
      simp at h
    · have : c = '/' := by simpa using hc
      simp [this]

theorem dropWhile_boundary (l : List Char) :
    l.dropWhile (fun x => x != '/') = [] ∨
      (l.dropWhile (fun x => x != '/')).head? = some '/' := by
  induction l with
  | nil => exact Or.inl rfl
  | cons c r ih =>
    rw [List.dropWhile_cons]
    by_cases hc : (c != '/') = true
    · rw [if_pos hc]
      exact ih
    · rw [if_neg hc]
      have : c = '/' := by simpa using hc
      simp [this]

theorem seg_good (c : Char) (rest : List Char)
    (h1 : ¬c = '/')
    (h2 : ¬(c = '.' ∧ (rest = [] ∨ rest.head? = some '/')))
    (h3 : ¬(c = '.' ∧ rest.head? = some '.' ∧
      (rest.tail = [] ∨ rest.tail.head? = some '/'))) :
    goodSeg (c :: rest.takeWhile (fun x => x != '/')) := by
  refine ⟨⟨by simp, ?_⟩, ?_, ?_⟩
  · intro hmem
    rcases List.mem_cons.1 hmem with hh | hh
    · exact h1 hh.symm
    · have := List.mem_takeWhile_imp hh
      simp at this
  · intro he
    have hc : c = '.' := by
      have := congrArg List.head? he
      simpa using this
    have ht : rest.takeWhile (fun x => x != '/') = [] := by
      have := congrArg List.tail he
      simpa using this
    exact h2 ⟨hc, takeWhile_nil_boundary rest ht⟩
  · intro he
    have hc : c = '.' := by
      have := congrArg List.head? he
      simpa [dd2] using this
    have ht : rest.takeWhile (fun x => x != '/') = ['.'] := by
      have := congrArg List.tail he
      simpa [dd2] using this
    cases rest with
    | nil => simp at ht
    | cons r0 rest2 =>
      rw [List.takeWhile_cons] at ht
      by_cases hr0 : (r0 != '/') = true
      · rw [if_pos hr0] at ht
        have hr0d : r0 = '.' := by
          have := congrArg List.head? ht
          simpa using this
        have ht2 : rest2.takeWhile (fun x => x != '/') = [] := by
          have := congrArg List.tail ht
          simpa using this
        exact h3 ⟨hc, by simp [hr0d], by simpa using takeWhile_nil_boundary rest2 ht2⟩
      · rw [if_neg hr0] at ht
        simp at ht

theorem nf_loop (n : Nat) : ∀ (p : List Char), p.length ≤ n →
    ∀ (rooted : Bool) (k : Nat) (segs : List (List Char)),
    (∀ t ∈ segs, goodSeg t) → (rooted = true → k = 0) →
    ∃ k2 segs2, (∀ t ∈ segs2, goodSeg t) ∧ (rooted = true → k2 = 0) ∧
      cleanLoop rooted p (outOf rooted k segs) (ddOf rooted k) = outOf rooted k2 segs2 := by
  induction n with
  | zero =>
    intro p hp rooted k segs hg hk
    have hpn : p = [] := List.length_eq_zero.1 (by omega)
    subst hpn
    exact ⟨k, segs, hg, hk, cleanLoop_nil rooted _ _⟩
  | succ n ih =>
    intro p hp rooted k segs hg hk
    cases p with
    | nil => exact ⟨k, segs, hg, hk, cleanLoop_nil rooted _ _⟩
    | cons c rest =>
      simp only [List.length_cons] at hp
      by_cases h1 : c = '/'
      · subst h1
        have hstep := cleanLoop_slash rooted rest (outOf rooted k segs) (ddOf rooted k)
        obtain ⟨k2, segs2, hg2, hk2, hrec⟩ := ih rest (by omega) rooted k segs hg hk
        exact ⟨k2, segs2, hg2, hk2, hstep.trans hrec⟩
      · by_cases h2 : c = '.' ∧ (rest = [] ∨ rest.head? = some '/')
        · obtain ⟨hc, hb⟩ := h2
          subst hc
          have hstep := cleanLoop_dot rooted rest (outOf rooted k segs) (ddOf rooted k) hb
          obtain ⟨k2, segs2, hg2, hk2, hrec⟩ := ih rest (by omega) rooted k segs hg hk
          exact ⟨k2, segs2, hg2, hk2, hstep.trans hrec⟩
        · by_cases h3 : c = '.' ∧ rest.head? = some '.' ∧
            (rest.tail = [] ∨ rest.tail.head? = some '/')
          · obtain ⟨hc, hh, hb⟩ := h3
            subst hc
            cases rest with
            | nil => simp at hh
            | cons r0 rest2 =>
              have hr0 : r0 = '.' := by simpa using hh
              subst hr0
              simp only [List.tail_cons] at hb
              have hrest2 : rest2.length ≤ n := by
                simp at hp
                omega
              have hstep := cleanLoop_dotdot rooted rest2 (outOf rooted k segs)
                (ddOf rooted k) hb
              by_cases hse : segs = []
              · subst hse
                have hnotgt : ¬(outOf rooted k []).length > ddOf rooted k := by
                  rw [outOf_length_gt rooted k [] (by simp)]
                  simp
                rw [if_neg hnotgt] at hstep
                cases rooted with
                | true =>
                  rw [if_neg (by simp)] at hstep
                  obtain ⟨k2, segs2, hg2, hk2, hrec⟩ :=
                    ih rest2 hrest2 true k [] (by simp) hk
                  exact ⟨k2, segs2, hg2, hk2, hstep.trans hrec⟩
                | false =>
                  rw [if_pos rfl] at hstep
                  rw [appendBranch_outOf k] at hstep
                  rw [outOf_append_nil_len (k + 1)] at hstep
                  obtain ⟨k2, segs2, hg2, hk2, hrec⟩ :=
                    ih rest2 hrest2 false (k + 1) [] (by simp) (by simp)
                  exact ⟨k2, segs2, hg2, hk2, hstep.trans hrec⟩
              · have hgt : (outOf rooted k segs).length > ddOf rooted k :=
                  (outOf_length_gt rooted k segs hg).2 hse
                rw [if_pos hgt] at hstep
                rw [bt_outOf rooted k segs hg hse] at hstep
                have hgdrop : ∀ t ∈ segs.dropLast, goodSeg t := fun t ht =>
                  hg t (List.dropLast_subset segs ht)
                obtain ⟨k2, segs2, hg2, hk2, hrec⟩ :=
                  ih rest2 hrest2 rooted k segs.dropLast hgdrop hk
                exact ⟨k2, segs2, hg2, hk2, hstep.trans hrec⟩
          · -- real path element
            have hgseg := seg_good c rest h1 h2 h3
            have hsplit : c :: rest =
                (c :: rest.takeWhile (fun x => x != '/')) ++
                  rest.dropWhile (fun x => x != '/') := by
              rw [List.cons_append, List.takeWhile_append_dropWhile]
            have hstep := cleanLoop_seg rooted (c :: rest.takeWhile (fun x => x != '/'))
              (rest.dropWhile (fun x => x != '/')) (outOf rooted k segs) (ddOf rooted k)
              hgseg (dropWhile_boundary rest)
            rw [← hsplit] at hstep
            rw [updOut_outOf rooted k segs _ hg] at hstep
            have hgapp : ∀ t ∈ segs ++ [c :: rest.takeWhile (fun x => x != '/')], goodSeg t := by
              intro t ht
              rcases List.mem_append.1 ht with hh | hh
              · exact hg t hh
              · rw [List.mem_singleton.1 hh]
                exact hgseg
            have hlen2 : (rest.dropWhile (fun x => x != '/')).length ≤ n := by
              have := (List.dropWhile_sublist (l := rest) (fun x => x != '/')).length_le
              omega
            obtain ⟨k2, segs2, hg2, hk2, hrec⟩ :=
              ih (rest.dropWhile (fun x => x != '/')) hlen2 rooted k
                (segs ++ [c :: rest.takeWhile (fun x => x != '/')]) hgapp hk
            exact ⟨k2, segs2, hg2, hk2, hstep.trans hrec⟩

/-! ### Unfolding `get_clean_path`, and cleaning is the identity on normal forms -/

theorem get_clean_path_rooted (path : String) (h : path.data.head? = some '/') :
    get_clean_path path =
      if cleanLoop true path.data.tail ['/'] 1 = [] then "."
      else ⟨cleanLoop true path.data.tail ['/'] 1⟩ := by
  simp only [get_clean_path, h]
  simp

theorem get_clean_path_unrooted (path : String) (h : ¬path.data.head? = some '/') :
    get_clean_path path =
      if cleanLoop false path.data [] 0 = [] then "."
      else ⟨cleanLoop false path.data [] 0⟩ := by
  simp only [get_clean_path]
  simp [h]

theorem run_rooted (segs : List (List Char)) : ∀ (pre : List (List Char)),
    (∀ t ∈ segs, goodSeg t) → (∀ t ∈ pre, goodSeg t) →
    cleanLoop true (joinSegs segs) ('/' :: joinSegs pre) 1 = '/' :: joinSegs (pre ++ segs) := by
  induction segs with
  | nil =>
    intro pre hg hp
    rw [show joinSegs [] = [] from rfl, cleanLoop_nil]
    simp
  | cons s segs2 ih =>
    intro pre hg hp
    have hs : goodSeg s := hg s (by simp)
    have hg2 : ∀ t ∈ segs2, goodSeg t := fun t ht => hg t (by simp [ht])
    have hp2 : ∀ x ∈ pre ++ [s], goodSeg x := by
      intro x hx
      rcases List.mem_append.1 hx with hh | hh
      · exact hp x hh
      · rw [List.mem_singleton.1 hh]
        exact hs
    have hupd : updOut true ('/' :: joinSegs pre) s = '/' :: joinSegs (pre ++ [s]) := by
      have := updOut_outOf true 0 pre s hp
      simpa [outOf] using this
    cases segs2 with
    | nil =>
      rw [show joinSegs [s] = s from rfl]
      rw [show (s : List Char) = s ++ [] by simp]
      rw [cleanLoop_seg true s [] _ 1 hs (Or.inl rfl)]
      rw [cleanLoop_nil]
      rw [hupd]
      simp
    | cons t segs3 =>
      rw [joinSegs_cons s (t :: segs3) (by simp)]
      rw [cleanLoop_seg true s ('/' :: joinSegs (t :: segs3)) _ 1 hs (Or.inr (by simp))]
      rw [cleanLoop_slash]
      rw [hupd]
      rw [ih (pre ++ [s]) hg2 hp2]
      simp

theorem run_segs (segs : List (List Char)) : ∀ (j : Nat) (pre : List (List Char)),
    (∀ t ∈ segs, goodSeg t) → (∀ t ∈ pre, goodSeg t) →
    cleanLoop false (joinSegs segs) (joinSegs (reps j ++ pre)) (joinSegs (reps j)).length
      = joinSegs (reps j ++ (pre ++ segs)) := by
  induction segs with
  | nil =>
    intro j pre hg hp
    rw [show joinSegs [] = [] from rfl, cleanLoop_nil]
    simp
  | cons s segs2 ih =>
    intro j pre hg hp
    have hs : goodSeg s := hg s (by simp)
    have hg2 : ∀ t ∈ segs2, goodSeg t := fun t ht => hg t (by simp [ht])
    have hp2 : ∀ x ∈ pre ++ [s], goodSeg x := by
      intro x hx
      rcases List.mem_append.1 hx with hh | hh
      · exact hp x hh
      · rw [List.mem_singleton.1 hh]
        exact hs
    have hupd : updOut false (joinSegs (reps j ++ pre)) s
        = joinSegs (reps j ++ (pre ++ [s])) := by
      have := updOut_outOf false j pre s hp
      simpa [outOf] using this
    cases segs2 with
    | nil =>
      have hseg := cleanLoop_seg false s [] (joinSegs (reps j ++ pre))
        (joinSegs (reps j)).length hs (Or.inl rfl)
      rw [List.append_nil] at hseg
      rw [show joinSegs [s] = s from rfl]
      rw [hseg]
      rw [cleanLoop_nil]
      rw [hupd]
    | cons t segs3 =>
      rw [joinSegs_cons s (t :: segs3) (by simp)]
      rw [cleanLoop_seg false s ('/' :: joinSegs (t :: segs3)) _ _ hs (Or.inr (by simp))]
      rw [cleanLoop_slash]
      rw [hupd]
      rw [ih j (pre ++ [s]) hg2 hp2]
      simp

theorem run_reps (k : Nat) : ∀ (j : Nat) (segs : List (List Char)),
    (∀ t ∈ segs, goodSeg t) →
    cleanLoop false (joinSegs (reps k ++ segs)) (joinSegs (reps j)) (joinSegs (reps j)).length
      = joinSegs (reps (j + k) ++ segs) := by
  induction k with
  | zero =>
    intro j segs hg
    have := run_segs segs j [] hg (by simp)
    simp only [List.append_nil] at this
    simpa [reps] using this
  | succ k2 ihk =>
    intro j segs hg
    have habj : (if (joinSegs (reps j)).length > 0 then joinSegs (reps j) ++ ['/']
        else joinSegs (reps j)) ++ dd2 = joinSegs (reps (j + 1)) := by
      have h1 : outOf false j [] = joinSegs (reps j) := by simp [outOf]
      have h2 : outOf false (j + 1) [] = joinSegs (reps (j + 1)) := by simp [outOf]
      rw [← h1, ← h2]
      exact appendBranch_outOf j
    have hnotgt : ¬(joinSegs (reps j)).length > (joinSegs (reps j)).length :=
      lt_irrefl _
    rw [show reps (k2 + 1) = dd2 :: reps k2 from List.replicate_succ dd2 k2]
    by_cases hrs : reps k2 ++ segs = []
    · obtain ⟨hk2, hsegs⟩ := List.append_eq_nil.1 hrs
      rw [show (dd2 :: reps k2) ++ segs = [dd2] by rw [List.cons_append, hrs]]
      rw [show joinSegs [dd2] = '.' :: '.' :: [] from rfl]
      rw [cleanLoop_dotdot false [] _ _ (Or.inl rfl)]
      rw [if_neg hnotgt]
      rw [if_pos rfl]
      rw [habj]
      rw [cleanLoop_nil]
      rw [hsegs]
      have hk20 : k2 = 0 := by
        by_contra hne
        exact absurd hk2 (by simp [reps, hne])
      rw [hk20]
      simp
    · rw [List.cons_append]
      rw [joinSegs_cons dd2 (reps k2 ++ segs) hrs]
      rw [show (dd2 ++ '/' :: joinSegs (reps k2 ++ segs) : List Char)
          = '.' :: '.' :: ('/' :: joinSegs (reps k2 ++ segs)) from rfl]
      rw [cleanLoop_dotdot false ('/' :: joinSegs (reps k2 ++ segs)) (joinSegs (reps j))
        ((joinSegs (reps j)).length) (Or.inr rfl)]
      rw [if_neg hnotgt]
      rw [if_pos rfl]
      rw [habj]
      rw [cleanLoop_slash]
      rw [ihk (j + 1) segs hg]
      rw [show j + 1 + k2 = j + (k2 + 1) by omega]

theorem clean_nf (p : String) :
    get_clean_path p = "/" ∨ get_clean_path p = "." ∨
    (∃ segs, segs ≠ [] ∧ (∀ t ∈ segs, goodSeg t) ∧
      get_clean_path p = ⟨'/' :: joinSegs segs⟩) ∨
    (∃ k segs, (reps k ++ segs) ≠ [] ∧ (∀ t ∈ segs, goodSeg t) ∧
      get_clean_path p = ⟨joinSegs (reps k ++ segs)⟩) := by
  by_cases hr : p.data.head? = some '/'
  · obtain ⟨k2, segs2, hg2, hk2, heq⟩ :=
      nf_loop p.data.tail.length p.data.tail le_rfl true 0 [] (by simp) (fun _ => rfl)
    rw [show outOf true 0 [] = ['/'] from rfl, show ddOf true 0 = 1 from rfl] at heq
    rw [show outOf true k2 segs2 = '/' :: joinSegs segs2 from rfl] at heq
    rw [get_clean_path_rooted p hr, heq]
    by_cases hs2 : segs2 = []
    · left
      subst hs2
      simp [joinSegs]
    · right; right; left
      exact ⟨segs2, hs2, hg2, by simp⟩
  · obtain ⟨k2, segs2, hg2, hk2, heq⟩ :=
      nf_loop p.data.length p.data le_rfl false 0 [] (by simp) (by simp)
    rw [show outOf false 0 [] = [] from rfl, show ddOf false 0 = 0 from rfl] at heq
    rw [show outOf false k2 segs2 = joinSegs (reps k2 ++ segs2) from rfl] at heq
    rw [get_clean_path_unrooted p hr, heq]
    by_cases hj : joinSegs (reps k2 ++ segs2) = []
    · right; left
      simp [hj]
    · right; right; right
      refine ⟨k2, segs2, ?_, hg2, by simp [hj]⟩
      intro hcon
      rw [hcon] at hj
      exact hj rfl

theorem clean_fix_slash : get_clean_path "/" = "/" := by
  rw [get_clean_path_rooted "/" rfl]
  rw [show ("/" : String).data.tail = [] from rfl]
  rw [cleanLoop_nil]
  simp

theorem clean_fix_dot : get_clean_path "." = "." := by
  rw [get_clean_path_unrooted "." (by decide)]
  rw [show ("." : String).data = ['.'] from rfl]
  rw [cleanLoop_dot false [] [] 0 (Or.inl rfl)]
  rw [cleanLoop_nil]
  simp

theorem clean_fix_rooted (segs : List (List Char)) (hg : ∀ t ∈ segs, goodSeg t) :
    get_clean_path ⟨'/' :: joinSegs segs⟩ = ⟨'/' :: joinSegs segs⟩ := by
  rw [get_clean_path_rooted ⟨'/' :: joinSegs segs⟩ rfl]
  rw [show (⟨'/' :: joinSegs segs⟩ : String).data.tail = joinSegs segs from rfl]
  rw [show (['/'] : List Char) = '/' :: joinSegs [] from rfl]
  rw [run_rooted segs [] hg (by simp)]
  simp

theorem clean_fix_unrooted (k : Nat) (segs : List (List Char))
    (h : reps k ++ segs ≠ []) (hg : ∀ t ∈ segs, goodSeg t) :
    get_clean_path ⟨joinSegs (reps k ++ segs)⟩ = ⟨joinSegs (reps k ++ segs)⟩ := by
  have hne : joinSegs (reps k ++ segs) ≠ [] :=
    joinSegs_ne_nil _ (reps_elem_ne_nil k segs hg) h
  have hhead : ¬(⟨joinSegs (reps k ++ segs)⟩ : String).data.head? = some '/' := by
    rw [show (⟨joinSegs (reps k ++ segs)⟩ : String).data = joinSegs (reps k ++ segs) from rfl]
    cases hA : reps k ++ segs with
    | nil => exact absurd hA h
    | cons e rest =>
      have hemem : e ∈ reps k ++ segs := by rw [hA]; simp
      have hene : e ≠ [] := reps_elem_ne_nil k segs hg e hemem
      have hens : '/' ∉ e := by
        rcases List.mem_append.1 hemem with hh | hh
        · rw [List.eq_of_mem_replicate hh]
          simp [dd2]
        · exact (hg e hh).1.2
      rw [joinSegs_head? e rest hene]
      cases e with
      | nil => exact absurd rfl hene
      | cons c e2 =>
        simp only [List.head?_cons, Option.some.injEq]
        intro hc
        exact hens (by simp [hc])
  have hrun := run_reps k 0 segs hg
  rw [show joinSegs (reps 0) = ([] : List Char) from rfl] at hrun
  rw [List.length_nil] at hrun
  rw [show (0 : Nat) + k = k from by omega] at hrun
  rw [get_clean_path_unrooted _ hhead]
  rw [show (⟨joinSegs (reps k ++ segs)⟩ : String).data = joinSegs (reps k ++ segs) from rfl]
  rw [hrun]
  simp [hne]

/-! ### Concrete evaluations of `get_clean_path` used by witness theorems -/

theorem clean_eval_x : get_clean_path "x" = "x" := by
  rw [show ("x" : String) = ⟨joinSegs (reps 0 ++ [['x']])⟩ from by decide]
  exact clean_fix_unrooted 0 [['x']] (by decide) (by decide)

theorem clean_eval_cfs_d_x : get_clean_path "/cfs/d/x" = "/cfs/d/x" := by
  rw [show ("/cfs/d/x" : String) = ⟨'/' :: joinSegs [['c', 'f', 's'], ['d'], ['x']]⟩ from by decide]
  exact clean_fix_rooted [['c', 'f', 's'], ['d'], ['x']] (by decide)

theorem clean_eval_d_x : get_clean_path "/d/x" = "/d/x" := by
  rw [show ("/d/x" : String) = ⟨'/' :: joinSegs [['d'], ['x']]⟩ from by decide]
  exact clean_fix_rooted [['d'], ['x']] (by decide)

theorem clean_eval_cfs_e : get_clean_path "/cfs/e" = "/cfs/e" := by
  rw [show ("/cfs/e" : String) = ⟨'/' :: joinSegs [['c', 'f', 's'], ['e']]⟩ from by decide]
  exact clean_fix_rooted [['c', 'f', 's'], ['e']] (by decide)

theorem clean_eval_cfsfoo : get_clean_path "/cfsfoo" = "/cfsfoo" := by
  rw [show ("/cfsfoo" : String) = ⟨'/' :: joinSegs [['c', 'f', 's', 'f', 'o', 'o']]⟩ from by decide]
  exact clean_fix_rooted [['c', 'f', 's', 'f', 'o', 'o']] (by decide)

theorem clean_eval_zz : get_clean_path "/zz" = "/zz" := by
  rw [show ("/zz" : String) = ⟨'/' :: joinSegs [['z', 'z']]⟩ from by decide]
  exact clean_fix_rooted [['z', 'z']] (by decide)

/-! ### Claim C4 -/

/-- C4: for every path string `p`, `get_clean_path` is idempotent —
`get_clean_path (get_clean_path p) = get_clean_path p` — and the result
never ends in the separator `/` unless it is exactly the root `"/"`; the
result is never the empty string, the empty input (and any input cleaning
to nothing) yielding `"."`. -/
theorem c4_clean_idempotent_no_trailing (p : String) :
    get_clean_path (get_clean_path p) = get_clean_path p ∧
    (get_clean_path p = "/" ∨ (get_clean_path p).data.getLast? ≠ some '/') ∧
    get_clean_path p ≠ "" ∧ get_clean_path "" = "." := by
  have hempty : get_clean_path "" = "." := by
    rw [get_clean_path_unrooted "" (by decide)]
    rw [show ("" : String).data = [] from rfl]
    rw [cleanLoop_nil]
    simp
  rcases clean_nf p with h | h | ⟨segs, hne, hg, h⟩ | ⟨k, segs, hne, hg, h⟩
  · rw [h]
    exact ⟨clean_fix_slash, Or.inl rfl, by decide, hempty⟩
  · rw [h]
    exact ⟨clean_fix_dot, Or.inr (by decide), by decide, hempty⟩
  · rw [h]
    refine ⟨clean_fix_rooted segs hg, ?_, ?_, hempty⟩
    · right
      obtain ⟨c, hc, hlast⟩ := joinSegs_getLast segs hne (fun t ht => (hg t ht).1)
      rw [show (⟨'/' :: joinSegs segs⟩ : String).data = '/' :: joinSegs segs from rfl]
      rw [show ('/' :: joinSegs segs : List Char) = ['/'] ++ joinSegs segs from rfl]
      rw [List.getLast?_append, hlast]
      simp [hc]
    · intro hcon
      have hd := congrArg String.data hcon
      simp at hd
  · rw [h]
    have hjne : joinSegs (reps k ++ segs) ≠ [] :=
      joinSegs_ne_nil _ (reps_elem_ne_nil k segs hg) hne
    refine ⟨clean_fix_unrooted k segs hne hg, ?_, ?_, hempty⟩
    · right
      have hp : ∀ t ∈ reps k ++ segs, plainSeg t := by
        intro t ht
        rcases List.mem_append.1 ht with hh | hh
        · rw [List.eq_of_mem_replicate hh]
          exact ⟨by simp [dd2], by decide⟩
        · exact (hg t hh).1
      obtain ⟨c, hc, hlast⟩ := joinSegs_getLast (reps k ++ segs) hne hp
      rw [show (⟨joinSegs (reps k ++ segs)⟩ : String).data = joinSegs (reps k ++ segs) from rfl]
      rw [hlast]
      simp [hc]
    · intro hcon
      have hd := congrArg String.data hcon
      simp at hd
      exact hjne hd

/-! ### Claim C1 -/

/-- C1: the claim says a path where the mount point is a string prefix not
bounded by a separator or end-of-string (mount `/cfs`, path `/cfsfoo`)
classifies local regardless of the ignore list. The code violates this:
with a non-empty ignore list the token loop never re-checks the boundary
character, so `/cfsfoo` is classified remote with remainder `foo`; with an
empty ignore list the boundary is checked and the path is local, as the
spec's invariant demands. This evaluates `get_cfs_path` at the failing
input in both configurations. -/
theorem c1_mount_boundary_eval :
    get_cfs_path allocOK gOut (some "/cfsfoo") = some "foo" ∧
    get_cfs_path allocOK gOutNoIgnore (some "/cfsfoo") = none := by
  constructor
  · simp only [get_cfs_path, clean_eval_cfsfoo]
    decide
  · simp only [get_cfs_path, clean_eval_cfsfoo]
    decide

/-! ### Claim C2 -/

/-- C2: whenever the fast-path loop of `cfs_pread_sock` accounts for
strictly fewer than `count` bytes — for any oracle behaviour whatsoever,
covering failed or empty extent queries, packet-build failures, connection
failures, failed writes or reads, and short replies — the fallback
`cfs_pread` is invoked and its result alone is returned; no fast-path
transport error reaches the caller. -/
theorem c2_fallback_result (env : SockEnv) (reqs : List cfs_read_req_t)
    (count : Nat) (fb : Int) (h : (fastLoop env reqs 0 0 0).1 < count) :
    cfs_pread_sock env reqs count fb = ⟨fb, true, (fastLoop env reqs 0 0 0).2⟩ := by
  simp only [cfs_pread_sock]
  rw [if_pos h]

/-- Witness for C2: with every collaborator failing, a 4096-byte request
over one descriptor falls back and returns the fallback's result. -/
theorem c2_fallback_result_witness :
    cfs_pread_sock failEnv [okReq] 4096 77 = ⟨77, true, 0⟩ :=
  c2_fallback_result failEnv [okReq] 4096 77 (by decide)

/-! ### Claim C3 -/

theorem fastLoop_all_exact (env : SockEnv) (reqs : List cfs_read_req_t) :
    ∀ (i read ex : Nat),
    (∀ pr ∈ reqs.enumFrom i, pr.2.size ≠ 0 ∧ pr.2.partition_id ≠ 0 ∧
      env.new_read_packet_ok pr.1 = true ∧ 0 ≤ env.get_conn pr.1 ∧
      0 ≤ env.write_sock pr.1 ∧ env.get_read_reply pr.1 = (pr.2.size : Int)) →
    fastLoop env reqs i read ex
      = (read + (reqs.map (fun r => r.size)).sum, ex + reqs.length) := by
  induction reqs with
  | nil =>
    intro i read ex h
    simp [fastLoop]
  | cons req rest ih =>
    intro i read ex h
    obtain ⟨hsz, hpid, hpk, hconn, hw, hre⟩ := h (i, req) (by simp [List.enumFrom_cons])
    have hrest : ∀ pr ∈ rest.enumFrom (i + 1), pr.2.size ≠ 0 ∧ pr.2.partition_id ≠ 0 ∧
        env.new_read_packet_ok pr.1 = true ∧ 0 ≤ env.get_conn pr.1 ∧
        0 ≤ env.write_sock pr.1 ∧ env.get_read_reply pr.1 = (pr.2.size : Int) := by
      intro pr hpr
      exact h pr (by simp [List.enumFrom_cons, hpr])
    simp only [fastLoop]
    rw [if_neg hsz, if_neg hpid, if_neg (by simp [hpk]),
      if_neg (not_lt.2 hconn), if_neg (not_lt.2 hw),
      if_neg (not_lt.2 (by rw [hre]; exact Int.natCast_nonneg _))]
    rw [hre]
    rw [show ((req.size : Int)).toNat = req.size from Int.toNat_natCast req.size]
    rw [if_pos rfl]
    rw [ih (i + 1) (read + req.size) (ex + 1) hrest]
    rw [Prod.mk.injEq]
    constructor
    · simp
      omega
    · simp
      omega

/-- C3: when the extent query fully covers the request with no holes and
every socket exchange succeeds with exactly the descriptor's size,
`cfs_pread_sock` returns exactly `count` bytes, the fallback is not
invoked, and there is one socket round trip per descriptor. -/
theorem c3_fast_path_exact (env : SockEnv) (reqs : List cfs_read_req_t)
    (count : Nat) (fb : Int)
    (hall : ∀ pr ∈ reqs.enum, pr.2.size ≠ 0 ∧ pr.2.partition_id ≠ 0 ∧
      env.new_read_packet_ok pr.1 = true ∧ 0 ≤ env.get_conn pr.1 ∧
      0 ≤ env.write_sock pr.1 ∧ env.get_read_reply pr.1 = (pr.2.size : Int))
    (hsum : (reqs.map (fun r => r.size)).sum = count) :
    cfs_pread_sock env reqs count fb = ⟨(count : Int), false, reqs.length⟩ := by
  have h0 := fastLoop_all_exact env reqs 0 0 0 (by simpa [List.enum_eq_enumFrom] using hall)
  simp only [Nat.zero_add, hsum] at h0
  simp only [cfs_pread_sock, h0]
  rw [if_neg (lt_irrefl count)]

/-- Witness for C3: offset 0, count 4096, a single descriptor covering the
whole range — exactly one socket round trip, zero fallback calls. -/
theorem c3_fast_path_exact_witness :
    cfs_pread_sock okEnv [okReq] 4096 (-99) = ⟨4096, false, 1⟩ :=
  c3_fast_path_exact okEnv [okReq] 4096 (-99) (by decide) (by decide)

/-! ### Claim C5 -/

/-- C5 is refuted by the code: for a relative path with the cwd inside CFS,
`get_cfs_path` cleans the relative path alone, concatenates the (already
mount-stripped) cwd, and returns the concatenation with no further
cleaning and no mount-point or ignore-list check. With mount `/cfs`,
ignore list `d`, cwd `/d`: the relative path `x` classifies remote with
remainder `/d/x`, while both absolute readings of `cwd + "/" + x` —
`/cfs/d/x` (full cwd) and `/d/x` (stored cwd) — classify local (`/cfs/d/x`
by the ignore list, `/d/x` by the mount-point test). -/
theorem c5_relative_classification_counterexample :
    get_cfs_path allocOK gIn (some "x") = some "/d/x" ∧
    get_cfs_path allocOK gIn (some "/cfs/d/x") = none ∧
    get_cfs_path allocOK gIn (some "/d/x") = none ∧
    (some "/d/x" : Option String) ≠ none := by
  refine ⟨?_, ?_, ?_, by decide⟩
  · simp only [get_cfs_path, clean_eval_x]
    decide
  · simp only [get_cfs_path, clean_eval_cfs_d_x]
    decide
  · simp only [get_cfs_path, clean_eval_d_x]
    decide

/-- C5 (amended): when the cwd is inside remote scope, a relative path `p`
is classified remote unconditionally (allocations succeeding): the result
is `cat_path cwd (get_clean_path p)`, i.e. the stored cwd, a separator, and
the cleaned relative path — the concatenation itself is not cleaned and
undergoes no mount-point or ignore-list test, so the decision and
remainder need not agree with classifying the absolute `cwd + "/" + p`. -/
theorem c5_relative_classification (g : ClientInfo) (p : String)
    (hin : g.in_cfs = true) (hrel : p.data.head? ≠ some '/') :
    get_cfs_path allocOK g (some p) = some (cat_path g.cwd (get_clean_path p)) := by
  simp only [get_cfs_path]
  rw [if_neg (by simp [hin])]
  rw [if_neg (by simp [allocOK])]
  rw [if_pos ⟨hrel, hin⟩]
  rw [if_neg (by simp [allocOK])]

/-- Witness for C5 (amended), at cwd `/d` and relative path `x`. -/
theorem c5_relative_classification_witness :
    get_cfs_path allocOK gIn (some "x") = some (cat_path gIn.cwd (get_clean_path "x")) :=
  c5_relative_classification gIn "x" rfl (by decide)

/-! ### Claim C6 -/

/-- C6 is refuted by the code: an allocation failure during classification
returns NULL, which is exactly the value returned for a path that is not
remote — the caller cannot distinguish out-of-memory from "treat as
local". Here a clean-allocation failure on the remote path `/cfs/e` yields
`none`, the same observable as the successful classification of the local
path `/zz`; with allocations succeeding the same path is remote. -/
theorem c6_alloc_failure_counterexample :
    get_cfs_path ⟨false, true, true, true⟩ gIn (some "/cfs/e") = none ∧
    get_cfs_path allocOK gIn (some "/zz") = none ∧
    get_cfs_path allocOK gIn (some "/cfs/e") = some "/e" := by
  refine ⟨by decide, ?_, ?_⟩
  · simp only [get_cfs_path, clean_eval_zz]
    decide
  · simp only [get_cfs_path, clean_eval_cfs_e]
    decide

/-- C6 (amended): an allocation failure at any of the four allocation
sites of `get_cfs_path` (cleaning, the ignore-list `strdup`, the cwd
concatenation, the stripped-result buffer) makes the call return NULL —
the same value as a local classification, not a distinguishable
out-of-memory condition. -/
theorem c6_alloc_failure_null (alloc : AllocEnv) (g : ClientInfo) (p : String) :
    (alloc.clean_ok = false → ∀ q : Option String, get_cfs_path alloc g q = none) ∧
    (p.data.head? = some '/' → alloc.strdup_ok = false →
      get_cfs_path alloc g (some p) = none) ∧
    (p.data.head? ≠ some '/' → g.in_cfs = true → alloc.cat_ok = false →
      get_cfs_path alloc g (some p) = none) ∧
    (p.data.head? = some '/' → alloc.result_ok = false →
      get_cfs_path alloc g (some p) = none) := by
  refine ⟨?_, ?_, ?_, ?_⟩
  · intro hc q
    cases q with
    | none => rfl
    | some pn =>
      simp only [get_cfs_path]
      split_ifs <;> simp_all
  · intro habs hsd
    simp only [get_cfs_path]
    split_ifs <;> simp_all
  · intro hrel hin hcat
    simp only [get_cfs_path]
    split_ifs <;> simp_all
  · intro habs hres
    simp only [get_cfs_path]
    split_ifs <;> simp_all

/-- Witness for C6 (amended): each failure site returns `none` on a
concrete configuration. -/
theorem c6_alloc_failure_null_witness :
    get_cfs_path ⟨false, true, true, true⟩ gIn (some "/cfs/e") = none ∧
    get_cfs_path ⟨true, true, false, true⟩ gIn (some "/cfs/e") = none ∧
    get_cfs_path ⟨true, false, true, true⟩ gIn (some "x") = none ∧
    get_cfs_path ⟨true, true, true, false⟩ gIn (some "/cfs/e") = none :=
  ⟨(c6_alloc_failure_null ⟨false, true, true, true⟩ gIn "/cfs/e").1 rfl (some "/cfs/e"),
   (c6_alloc_failure_null ⟨true, true, false, true⟩ gIn "/cfs/e").2.1 (by decide) rfl,
   (c6_alloc_failure_null ⟨true, false, true, true⟩ gIn "x").2.2.1 (by decide) rfl rfl,
   (c6_alloc_failure_null ⟨true, true, true, false⟩ gIn "/cfs/e").2.2.2 (by decide) rfl⟩

/-! ### Claim C7 -/

/-- C7 is refuted by the code: `get_cfs_fd` returns a `dup_fds` entry as
stored, without stripping `CFS_FD_MASK` after the indirection. With the
alias `5 ↦ CFS_FD_MASK + 7` the claim predicts handle id 7, but the code
returns `CFS_FD_MASK + 7`. -/
theorem c7_get_cfs_fd_counterexample :
    get_cfs_fd fdStAlias 5 = ((CFS_FD_MASK + 7 : Nat) : Int) ∧
    ((CFS_FD_MASK + 7 : Nat) : Int) ≠ 7 := by
  constructor
  · rfl
  · decide

/-- C7 (amended): for an aliased fd, `get_cfs_fd` follows one indirection
and returns the stored original descriptor unchanged (the reserved bit, if
set there, is not stripped); for a non-aliased fd with the reserved bit
set it strips the bit; otherwise it returns -1. -/
theorem c7_get_cfs_fd_resolution (st : FdState) (fd : Nat) :
    (∀ ofd, st.dup_fds fd = some ofd → get_cfs_fd st fd = (ofd : Int)) ∧
    (st.dup_fds fd = none → fd &&& CFS_FD_MASK ≠ 0 →
      get_cfs_fd st fd = ((fd &&& CFS_FD_UNMASK : Nat) : Int)) ∧
    (st.dup_fds fd = none → fd &&& CFS_FD_MASK = 0 → get_cfs_fd st fd = -1) := by
  refine ⟨?_, ?_, ?_⟩
  · intro ofd h
    simp [get_cfs_fd, h]
  · intro h hbit
    simp [get_cfs_fd, h, hbit]
  · intro h hbit
    simp [get_cfs_fd, h, hbit]

/-- Witness for C7 (amended): an alias returns the stored value as-is; a
direct fd with the reserved bit set is stripped; a plain fd yields -1. -/
theorem c7_get_cfs_fd_resolution_witness :
    get_cfs_fd fdStAlias 5 = ((CFS_FD_MASK + 7 : Nat) : Int) ∧
    get_cfs_fd fdStOne (CFS_FD_MASK + 3) = (((CFS_FD_MASK + 3) &&& CFS_FD_UNMASK : Nat) : Int) ∧
    get_cfs_fd fdStOne 4 = -1 :=
  ⟨(c7_get_cfs_fd_resolution fdStAlias 5).1 (CFS_FD_MASK + 7) rfl,
   (c7_get_cfs_fd_resolution fdStOne (CFS_FD_MASK + 3)).2.1 rfl (by decide),
   (c7_get_cfs_fd_resolution fdStOne 4).2.2 rfl (by decide)⟩

/-! ### Claim C8 -/

/-- C8: `dup_fd(oldfd, newfd)` fails with -1 and leaves both tables
untouched when `oldfd` has no open-file entry; otherwise it increments the
open file's `dup_ref` by exactly one, records the alias
`dup_fds[newfd] = oldfd`, changes nothing else, and returns `newfd`. -/
theorem c8_dup_fd (st : FdState) (oldfd newfd : Nat) :
    (st.open_files oldfd = none → dup_fd st oldfd newfd = (-1, st)) ∧
    (∀ f, st.open_files oldfd = some f →
      (dup_fd st oldfd newfd).1 = (newfd : Int) ∧
      (dup_fd st oldfd newfd).2.open_files oldfd
        = some { f with dup_ref := f.dup_ref + 1 } ∧
      (dup_fd st oldfd newfd).2.dup_fds newfd = some oldfd ∧
      (∀ x, x ≠ oldfd → (dup_fd st oldfd newfd).2.open_files x = st.open_files x) ∧
      (∀ x, x ≠ newfd → (dup_fd st oldfd newfd).2.dup_fds x = st.dup_fds x)) := by
  constructor
  · intro h
    simp [dup_fd, h]
  · intro f h
    refine ⟨?_, ?_, ?_, fun x hx => ?_, fun x hx => ?_⟩
    · simp [dup_fd, h]
    · simp [dup_fd, h]
    · simp [dup_fd, h]
    · simp [dup_fd, h, hx]
    · simp [dup_fd, h, hx]

/-- Witness for C8: duplicating the open fd 9 onto 5 succeeds and bumps
`dup_ref`; duplicating the unopened fd 5 fails and changes nothing. -/
theorem c8_dup_fd_witness :
    dup_fd fdStOne 5 6 = (-1, fdStOne) ∧
    (dup_fd fdStOne 9 5).1 = 5 ∧
    (dup_fd fdStOne 9 5).2.open_files 9
      = some { sampleFile with dup_ref := sampleFile.dup_ref + 1 } ∧
    (dup_fd fdStOne 9 5).2.dup_fds 5 = some 9 :=
  ⟨(c8_dup_fd fdStOne 5 6).1 rfl,
   ((c8_dup_fd fdStOne 9 5).2 sampleFile rfl).1,
   ((c8_dup_fd fdStOne 9 5).2 sampleFile rfl).2.1,
   ((c8_dup_fd fdStOne 9 5).2 sampleFile rfl).2.2.1⟩

/-! ### Claim C9 -/

/-- C9: both error translators turn a negative remote status `re` into the
sentinel -1 with errno `-re`, and a non-negative status into itself with
errno cleared to 0, regardless of the previously set errno value. -/
theorem c9_cfs_errno (errno0 re : Int) :
    (re < 0 → cfs_errno errno0 re = (-1, -re) ∧ cfs_errno_ssize_t errno0 re = (-1, -re)) ∧
    (0 ≤ re → cfs_errno errno0 re = (re, 0) ∧ cfs_errno_ssize_t errno0 re = (re, 0)) := by
  constructor
  · intro h
    constructor <;> simp [cfs_errno, cfs_errno_ssize_t, h]
  · intro h
    constructor <;> simp [cfs_errno, cfs_errno_ssize_t, not_lt.2 h]

/-- Witness for C9: remote status -2 yields errno 2 and the sentinel -1
(even with a stale errno of 7); status 5 yields errno 0 and 5. -/
theorem c9_cfs_errno_witness :
    cfs_errno 7 (-2) = (-1, 2) ∧ cfs_errno_ssize_t 7 (-2) = (-1, 2) ∧
    cfs_errno 7 5 = (5, 0) := by
  have h1 := (c9_cfs_errno 7 (-2)).1 (by decide)
  have h2 := (c9_cfs_errno 7 5).2 (by decide)
  exact ⟨h1.1.trans (by decide), h1.2.trans (by decide), h2.1⟩

/-! ### Claim C10 -/

/-- C10: a relative pathname (or a NULL pathname) with the cwd not inside
remote scope is classified local immediately — `get_cfs_path` returns NULL
for every mount point, ignore list, cwd and allocation behaviour, with no
cleaning, concatenation or mount-point comparison. -/
theorem c10_relative_outside_cfs (alloc : AllocEnv) (g : ClientInfo) (p : String)
    (hin : g.in_cfs = false) (hrel : p.data.head? ≠ some '/') :
    get_cfs_path alloc g (some p) = none ∧ get_cfs_path alloc g none = none := by
  constructor
  · simp only [get_cfs_path]
    rw [if_pos ⟨hrel, hin⟩]
  · rfl

/-- Witness for C10: the relative path `x` with cwd outside CFS — even
though `/` ++ `x` cleaned would not change the decision here, no comparison
happens at all — and the NULL pathname. -/
theorem c10_relative_outside_cfs_witness :
    get_cfs_path allocOK gOut (some "x") = none ∧ get_cfs_path allocOK gOut none = none :=
  c10_relative_outside_cfs allocOK gOut "x" rfl (by decide)

end CfsClient
